import Mathlib

/-!
Verification of the temporal-clustering core of `scripts/git2work.py`
(repository `git2work`): timestamp resolution (`commit_time_dt`), session
segmentation with pull-time adjustment (`compute_work_sessions`), category
windows (`compute_feature_windows`) and cross-project overlap detection
(`detect_parallel_sessions`).

Modelling conventions:
- A `datetime` instant is modelled as an `Int` counting seconds; `timedelta`
  comparisons and `total_seconds()` arithmetic become `Int` arithmetic
  (`gap_minutes` minutes = `gap_minutes * 60` seconds).
- Python float floor division `(..).total_seconds() // 60` on whole-second
  values is `Int.fdiv _ 60`.
- A Python function that can raise an uncaught exception is modelled as
  returning `Option _`; `none` is the propagated exception.  A raise inside a
  loop aborts the whole computation, exactly as in Python.
- `strptime`/`fromisoformat` attempts on the raw date string are modelled by a
  `RawDate` record holding the (optional) instant each of the three formats
  would yield for that string; strings themselves carry no further
  information observable by the clustering core.
- Python `sorted`/`list.sort` are stable sorts; they are modelled by
  `List.insertionSort`, which is also stable, with the same key.
- Python `dict` used purely through `get`/item-assignment
  (`compute_feature_windows`) is modelled as a lookup function
  `String → Option Window`; a `dict` used as an ordered association container
  (`repo_to_sessions`) is modelled as `List (String × List Session)`; a
  Python `set` of repo names is a `Finset String`.
-/

/-- Result of trying the three date-string parses of `commit_time_dt`:
`tz` is `strptime "%Y-%m-%d %H:%M:%S %z"` (converted to local naive time),
`bare` is `strptime "%Y-%m-%d %H:%M:%S"`, `iso` is the final
`datetime.fromisoformat` fallback; `none` means that parse raises. -/
structure RawDate where
  tz : Option Int
  bare : Option Int
  iso : Option Int
deriving DecidableEq, Repr

/-- One commit/event record as built by `parse_git_log` or the remote-API
readers: `date_epoch` is `int | None`, `date` abstracts the raw date string
by its three possible parses. -/
structure Commit where
  sha : String
  author_name : String
  author_email : String
  date : RawDate
  date_epoch : Option Int
  message : String
deriving DecidableEq, Repr

/-- The string-parsing fallback chain of `commit_time_dt` (git2work.py
lines 548-556): try the timezone format, then the bare format, then the
`fromisoformat` fallback whose failure propagates (`none`). -/
def parse_date_fallback (d : RawDate) : Option Int :=
  match d.tz with
  | some t => some t
  | none =>
    match d.bare with
    | some t => some t
    | none => d.iso

/-- `commit_time_dt` (git2work.py lines 542-556): if `date_epoch` is truthy
(present and nonzero) it is authoritative; otherwise fall back to parsing the
date string.  `none` models the uncaught exception when every parse fails. -/
def commit_time_dt (c : Commit) : Option Int :=
  match c.date_epoch with
  | some e => if e = 0 then parse_date_fallback c.date else some e
  | none => parse_date_fallback c.date

/-- A closed work session as emitted by `compute_work_sessions`; `stop`
models the Python key `end` (a Lean keyword). -/
structure Session where
  start : Int
  stop : Int
  duration_minutes : Int
  commits : List Commit
deriving DecidableEq, Repr

/-- The in-progress session dict `current` before `duration_minutes` is
filled in; commits are kept paired with their resolved instants. -/
structure CurSession where
  start : Int
  stop : Int
  commits : List (Int × Commit)
deriving DecidableEq, Repr

/-- The scan of `reversed(pull_times_sorted)` looking for a pull time at most
`t` whose distance to `t` is strictly positive and at most 120 minutes
(7200 s); non-qualifying entries are skipped and the scan continues
(git2work.py lines 591-598 and 616-621). -/
def find_pull_start (t : Int) : List Int → Option Int
  | [] => none
  | p :: rest =>
    if p ≤ t then
      if 0 < t - p ∧ t - p ≤ 7200 then some p
      else find_pull_start t rest
    else find_pull_start t rest

/-- Start instant of a fresh session on first commit instant `t`: the
qualifying pull time if the scan finds one, else `t` itself. -/
def adjustStart (pullsDesc : List Int) (t : Int) : Int :=
  match find_pull_start t pullsDesc with
  | some p => p
  | none => t

/-- Closing a session: `duration_minutes = max(1, int((end-start).total_seconds() // 60))`
(git2work.py lines 607 and 624). -/
def closeSession (cur : CurSession) : Session :=
  { start := cur.start
    stop := cur.stop
    duration_minutes := max 1 ((cur.stop - cur.start).fdiv 60)
    commits := cur.commits.map Prod.snd }

/-- `commit_time_dt(current['commits'][-1])`: instant of the last member of
the current session.  `current['commits']` is never empty when this is read;
the default (never reached) is `cur.stop`. -/
def lastInstant (cur : CurSession) : Int :=
  ((cur.commits.getLast?).map Prod.fst).getD cur.stop

/-- The segmentation loop of `compute_work_sessions` (git2work.py lines
600-625) over the already-sorted remaining items: extend the current session
when the next instant is within `gapSec` of the last member's instant,
otherwise close it and start a new one (with pull adjustment of its start). -/
def sessionLoop (gapSec : Int) (pullsDesc : List Int) :
    List (Int × Commit) → CurSession → List Session
  | [], cur => [closeSession cur]
  | (t, c) :: rest, cur =>
    if t - lastInstant cur ≤ gapSec then
      sessionLoop gapSec pullsDesc rest ⟨cur.start, t, cur.commits ++ [(t, c)]⟩
    else
      closeSession cur ::
        sessionLoop gapSec pullsDesc rest ⟨adjustStart pullsDesc t, t, [(t, c)]⟩

/-- Resolving every commit's instant, in list order; the first failure
aborts the whole computation (this is what `sorted(commits, key=commit_time_dt)`
does when the key raises). -/
def resolveAll : List Commit → Option (List (Int × Commit))
  | [] => some []
  | c :: rest =>
    match commit_time_dt c with
    | none => none
    | some t =>
      match resolveAll rest with
      | none => none
      | some ps => some ((t, c) :: ps)

/-- Sort key relation of `sorted(commits, key=lambda c: commit_time_dt(c))`. -/
def instLe (a b : Int × Commit) : Prop := a.1 ≤ b.1

instance : DecidableRel instLe := fun a b => by unfold instLe; infer_instance

instance : IsTotal (Int × Commit) instLe := ⟨fun a b => Int.le_total a.1 b.1⟩

instance : IsTrans (Int × Commit) instLe := ⟨fun _ _ _ => Int.le_trans⟩

/-- `sorted(pull_times)` walked by `reversed(..)`: the pull times in
descending order. -/
def sortPullsDesc (pull_times : List Int) : List Int :=
  (List.insertionSort (fun a b : Int => a ≤ b) pull_times).reverse

/-- `compute_work_sessions` (git2work.py lines 558-626).  Empty input yields
`[]` before any timestamp is touched; otherwise all timestamps are resolved
(one failure aborts with `none`), items are stably sorted by instant,
`pull_times` are sorted ascending and scanned in reverse, and the scan loop
produces the session list.  The inner `[]` case is unreachable (the resolved
list of a nonempty input is nonempty). -/
def compute_work_sessions (commits : List Commit) (gap_minutes : Int)
    (pull_times : List Int) : Option (List Session) :=
  match commits with
  | [] => some []
  | _ :: _ =>
    match resolveAll commits with
    | none => none
    | some resolved =>
      match List.insertionSort instLe resolved with
      | [] => none
      | (t0, c0) :: rest =>
        some (sessionLoop (gap_minutes * 60) (sortPullsDesc pull_times) rest
          ⟨adjustStart (sortPullsDesc pull_times) t0, t0, [(t0, c0)]⟩)

/-- Instant of the first commit of a session, re-resolved from the stored
commit (the session's pre-pull-adjustment start). -/
def firstInstant (S : Session) : Option Int :=
  match S.commits with
  | [] => none
  | c :: _ => commit_time_dt c

/-- Python `str.strip()` on the message. -/
def stripChars (l : List Char) : List Char :=
  ((l.dropWhile Char.isWhitespace).reverse.dropWhile Char.isWhitespace).reverse

/-- `msg.split(':', 1)[0].lower().split(' ')[0]` with the whitelist test of
`compute_feature_windows` (git2work.py lines 632-634): the prefix before the
first colon, lowercased, cut at the first space; if not whitelisted the
category is `other`. -/
def categoryOf (msg : String) : String :=
  let token :=
    (((stripChars msg.data).takeWhile (fun ch => ch ≠ ':')).map Char.toLower).takeWhile
      (fun ch => ch ≠ ' ')
  let tokenS := String.mk token
  if tokenS ∈ ["feat", "fix", "docs", "build", "refactor", "chore", "perf", "test"] then tokenS
  else "other"

/-- One category window `{'start': .., 'end': .., 'count': ..}`; `stop`
models the Python key `end`. -/
structure Window where
  start : Int
  stop : Int
  count : Int
deriving DecidableEq, Repr

/-- Updating one category's window with a new instant (git2work.py lines
636-644): create it on first sight, else lower `start`, raise `end` and
bump `count`. -/
def stepWindow (w : Option Window) (t : Int) : Option Window :=
  match w with
  | none => some ⟨t, t, 1⟩
  | some w =>
    some ⟨if t < w.start then t else w.start, if w.stop < t then t else w.stop, w.count + 1⟩

/-- Writing one category's updated window back into the dict. -/
def updWindows (ws : String → Option Window) (key : String) (t : Int) :
    String → Option Window :=
  fun k => if k = key then stepWindow (ws key) t else ws k

/-- The fold of `compute_feature_windows` over the commit list, threading the
`windows` dict as a lookup function; an unresolvable timestamp raises and
aborts (`none`). -/
def fwLoop : List Commit → (String → Option Window) → Option (String → Option Window)
  | [], ws => some ws
  | c :: rest, ws =>
    match commit_time_dt c with
    | none => none
    | some t => fwLoop rest (updWindows ws (categoryOf c.message) t)

/-- `compute_feature_windows` (git2work.py lines 628-645), starting from the
empty dict. -/
def compute_feature_windows (commits : List Commit) : Option (String → Option Window) :=
  fwLoop commits (fun _ => none)

/-- One `(start, end, repo)` triple of the flattened session list inside
`detect_parallel_sessions` (the unused `'session'` payload is omitted). -/
structure Period where
  start : Int
  stop : Int
  repo : String
deriving DecidableEq, Repr

/-- A (raw or grace-merged) overlap record; `repos` models the Python
`sorted(set(...))` of repo names as a finite set. -/
structure Overlap where
  start : Int
  stop : Int
  repos : Finset String
  duration_minutes : Int
deriving DecidableEq

/-- Python `min` over a nonempty list (the `[]` default is never reached). -/
def minList : List Int → Int
  | [] => 0
  | x :: rest => rest.foldl min x

/-- Python `max` over a nonempty list (the `[]` default is never reached). -/
def maxList : List Int → Int
  | [] => 0
  | x :: rest => rest.foldl max x

/-- The group-closing step (git2work.py lines 690-699 and 703-712): emit a
raw overlap exactly when the group spans more than one distinct repo. -/
def closeGroup (cur : List Period) : List Overlap :=
  if 1 < ((cur.map Period.repo).toFinset).card then
    [{ start := minList (cur.map Period.start)
       stop := maxList (cur.map Period.stop)
       repos := (cur.map Period.repo).toFinset
       duration_minutes :=
         (maxList (cur.map Period.stop) - minList (cur.map Period.start)).fdiv 60 }]
  else []

/-- `not (period['end'] < existing['start'] or period['start'] > existing['end'])`
for at least one member of the current group (closed-boundary intersection,
git2work.py lines 680-684). -/
def overlapsOne (p : Period) (cur : List Period) : Bool :=
  cur.any (fun e => !(decide (p.stop < e.start) || decide (p.start > e.stop)))

/-- Phase-1 scan (git2work.py lines 672-712) over the sorted periods: a
period joins the current group when it intersects at least one member,
otherwise the group is closed and a new one starts; the last group is
closed at the end. -/
def phase1loop : List Period → List Period → List Overlap
  | [], cur => closeGroup cur
  | p :: rest, cur =>
    if cur.isEmpty then phase1loop rest [p]
    else if overlapsOne p cur then phase1loop rest (cur ++ [p])
    else closeGroup cur ++ phase1loop rest [p]

/-- Flattening `repo_to_sessions` into `(start, end, repo)` triples
(git2work.py lines 655-663). -/
def sessPeriods (m : List (String × List Session)) : List Period :=
  m.flatMap (fun rs => rs.2.map (fun s => ⟨s.start, s.stop, rs.1⟩))

/-- Sort key `(start, end)` of the period sort, as a lexicographic order. -/
def periodLe (a b : Period) : Prop :=
  a.start < b.start ∨ (a.start = b.start ∧ a.stop ≤ b.stop)

instance : DecidableRel periodLe := fun a b => by unfold periodLe; infer_instance

/-- Sort key `(start, end)` of the phase-2 sort of raw overlaps. -/
def overlapLe (a b : Overlap) : Prop :=
  a.start < b.start ∨ (a.start = b.start ∧ a.stop ≤ b.stop)

instance : DecidableRel overlapLe := fun a b => by unfold overlapLe; infer_instance

/-- Grace-merging two overlap records (git2work.py lines 727-730). -/
def mergeTwo (cur nxt : Overlap) : Overlap :=
  { start := min cur.start nxt.start
    stop := max cur.stop nxt.stop
    repos := cur.repos ∪ nxt.repos
    duration_minutes := (max cur.stop nxt.stop - min cur.start nxt.start).fdiv 60 }

/-- Phase-2 fold (git2work.py lines 721-734): merge the next period into the
accumulator when the gap is at most 5 minutes (300 s) or the two already
intersect, else emit the accumulator and continue from the next period. -/
def phase2loop (cur : Overlap) : List Overlap → List Overlap
  | [] => [cur]
  | nxt :: rest =>
    if nxt.start - cur.stop ≤ 300 ∨ ¬(nxt.stop < cur.start ∨ nxt.start > cur.stop) then
      phase2loop (mergeTwo cur nxt) rest
    else cur :: phase2loop nxt rest

/-- `detect_parallel_sessions` (git2work.py lines 647-736): early empty
results for fewer than two mapping entries or no periods at all, then the
two-phase merge. -/
def detect_parallel_sessions (m : List (String × List Session)) : List Overlap :=
  if m.length < 2 then []
  else if (sessPeriods m).isEmpty then []
  else
    match List.insertionSort overlapLe
        (phase1loop (List.insertionSort periodLe (sessPeriods m)) []) with
    | [] => []
    | o :: rest => phase2loop o rest

/-! Helper lemmas about the pull-time scan. -/

/-- A hit of the reverse scan is a member of the scanned list and satisfies
the strict-positivity and 120-minute bounds. -/
theorem find_pull_start_mem {t p : Int} : ∀ {ps : List Int},
    find_pull_start t ps = some p → p ∈ ps ∧ 0 < t - p ∧ t - p ≤ 7200 := by
  intro ps
  induction ps with
  | nil => intro h; simp [find_pull_start] at h
  | cons q rest ih =>
    intro h
    unfold find_pull_start at h
    split_ifs at h with h1 h2
    · obtain rfl : q = p := Option.some.inj h
      exact ⟨List.mem_cons_self _ _, h2⟩
    · obtain ⟨hm, hq⟩ := ih h
      exact ⟨List.mem_cons_of_mem _ hm, hq⟩
    · obtain ⟨hm, hq⟩ := ih h
      exact ⟨List.mem_cons_of_mem _ hm, hq⟩

/-- On a descending list the scan's hit is the greatest qualifying entry. -/
theorem find_pull_start_greatest {t : Int} : ∀ {ps : List Int} {m : Int},
    ps.Pairwise (fun a b => b ≤ a) → find_pull_start t ps = some m →
    ∀ p ∈ ps, 0 < t - p → t - p ≤ 7200 → p ≤ m := by
  intro ps
  induction ps with
  | nil => intro m _ h; simp [find_pull_start] at h
  | cons q rest ih =>
    intro m hpw h p hp h1 h2
    obtain ⟨hq, hrest⟩ := List.pairwise_cons.mp hpw
    unfold find_pull_start at h
    split_ifs at h with hle hqual
    · obtain rfl : q = m := Option.some.inj h
      rcases List.mem_cons.mp hp with rfl | hp'
      · exact le_refl _
      · exact hq p hp'
    · rcases List.mem_cons.mp hp with rfl | hp'
      · exact absurd ⟨h1, h2⟩ hqual
      · exact ih hrest h p hp' h1 h2
    · rcases List.mem_cons.mp hp with rfl | hp'
      · exact absurd (by omega : p ≤ t) hle
      · exact ih hrest h p hp' h1 h2

/-- If the scan misses, no entry qualifies. -/
theorem find_pull_start_none_forall {t : Int} : ∀ {ps : List Int},
    find_pull_start t ps = none → ∀ p ∈ ps, ¬(0 < t - p ∧ t - p ≤ 7200) := by
  intro ps
  induction ps with
  | nil => intro _ p hp; simp at hp
  | cons q rest ih =>
    intro h p hp
    unfold find_pull_start at h
    split_ifs at h with hle hqual
    · rcases List.mem_cons.mp hp with rfl | hp'
      · exact hqual
      · exact ih h p hp'
    · rcases List.mem_cons.mp hp with rfl | hp'
      · intro hc; exact hle (by omega)
      · exact ih h p hp'

/-- If no entry qualifies, the scan misses. -/
theorem find_pull_start_eq_none {t : Int} : ∀ {ps : List Int},
    (∀ p ∈ ps, ¬(0 < t - p ∧ t - p ≤ 7200)) → find_pull_start t ps = none := by
  intro ps
  induction ps with
  | nil => intro _; rfl
  | cons q rest ih =>
    intro h
    unfold find_pull_start
    split_ifs with hle hqual
    · exact absurd hqual (h q (List.mem_cons_self _ _))
    · exact ih fun p hp => h p (List.mem_cons_of_mem _ hp)
    · exact ih fun p hp => h p (List.mem_cons_of_mem _ hp)

/-- Pull adjustment never moves the start later than the first commit. -/
theorem adjustStart_le (pullsDesc : List Int) (t : Int) : adjustStart pullsDesc t ≤ t := by
  unfold adjustStart
  cases h : find_pull_start t pullsDesc with
  | none => exact le_refl t
  | some p =>
    obtain ⟨_, h1, _⟩ := find_pull_start_mem h
    show p ≤ t
    omega

/-- Without a qualifying pull time the start is the first commit instant. -/
theorem adjustStart_eq_of_no_qual {pullsDesc : List Int} {t : Int}
    (h : ∀ p ∈ pullsDesc, ¬(0 < t - p ∧ t - p ≤ 7200)) : adjustStart pullsDesc t = t := by
  unfold adjustStart
  rw [find_pull_start_eq_none h]

/-- Membership survives the sort-then-reverse of the pull times. -/
theorem mem_sortPullsDesc {p : Int} {l : List Int} : p ∈ sortPullsDesc l ↔ p ∈ l := by
  unfold sortPullsDesc
  rw [List.mem_reverse]
  exact (List.perm_insertionSort _ l).mem_iff

/-- The reversed sorted pull times are pairwise descending. -/
theorem sortPullsDesc_pairwise (l : List Int) :
    (sortPullsDesc l).Pairwise (fun a b => b ≤ a) := by
  unfold sortPullsDesc
  rw [List.pairwise_reverse]
  exact List.sorted_insertionSort (fun a b : Int => a ≤ b) l

/-! Helper lemmas about timestamp resolution. -/

/-- Every pair produced by a successful resolution is a true resolution. -/
theorem resolveAll_mem : ∀ {cs : List Commit} {l : List (Int × Commit)},
    resolveAll cs = some l → ∀ x ∈ l, commit_time_dt x.2 = some x.1 := by
  intro cs
  induction cs with
  | nil =>
    intro l h x hx
    simp [resolveAll] at h
    subst h
    simp at hx
  | cons c rest ih =>
    intro l h x hx
    unfold resolveAll at h
    cases hc : commit_time_dt c with
    | none => rw [hc] at h; exact absurd h (by simp)
    | some t =>
      rw [hc] at h
      cases hr : resolveAll rest with
      | none => rw [hr] at h; exact absurd h (by simp)
      | some ps =>
        rw [hr] at h
        obtain rfl : (t, c) :: ps = l := Option.some.inj h
        rcases List.mem_cons.mp hx with rfl | hx'
        · exact hc
        · exact ih hr x hx'

/-- One unresolvable commit aborts the whole resolution. -/
theorem resolveAll_eq_none : ∀ {cs : List Commit} {c : Commit},
    c ∈ cs → commit_time_dt c = none → resolveAll cs = none := by
  intro cs
  induction cs with
  | nil => intro c hc; simp at hc
  | cons c' rest ih =>
    intro c hc hbad
    unfold resolveAll
    rcases List.mem_cons.mp hc with rfl | hc'
    · rw [hbad]
    · cases hc'' : commit_time_dt c' with
      | none => rfl
      | some t => rw [ih hc' hbad]

/-- If every commit resolves, resolution succeeds and keeps the length. -/
theorem resolveAll_isSome : ∀ {cs : List Commit},
    (∀ c ∈ cs, (commit_time_dt c).isSome) →
    ∃ l, resolveAll cs = some l ∧ l.length = cs.length := by
  intro cs
  induction cs with
  | nil => intro _; exact ⟨[], rfl, rfl⟩
  | cons c rest ih =>
    intro h
    obtain ⟨t, ht⟩ := Option.isSome_iff_exists.mp (h c (List.mem_cons_self _ _))
    obtain ⟨l, hl, hlen⟩ := ih fun c' hc' => h c' (List.mem_cons_of_mem _ hc')
    refine ⟨(t, c) :: l, ?_, by simp [hlen]⟩
    unfold resolveAll
    rw [ht, hl]

/-! Helper lemmas about the segmentation loop. -/

/-- A session whose first stored commit is `c` starts, for re-resolution
purposes, at the instant of `c`. -/
theorem firstInstant_eq_of_head {S : Session} {c : Commit}
    (h : S.commits.head? = some c) : firstInstant S = commit_time_dt c := by
  cases hc : S.commits with
  | nil => rw [hc] at h; simp at h
  | cons y ys =>
    rw [hc] at h
    obtain rfl := Option.some.inj h
    unfold firstInstant
    rw [hc]

/-- Closing a session keeps its first commit's instant. -/
theorem firstInstant_closeSession {cur : CurSession} {tF : Int}
    (hhead : (cur.commits.head?).map Prod.fst = some tF)
    (hres : ∀ x ∈ cur.commits, commit_time_dt x.2 = some x.1) :
    firstInstant (closeSession cur) = some tF := by
  cases hc : cur.commits with
  | nil => rw [hc] at hhead; simp at hhead
  | cons y ys =>
    rw [hc] at hhead hres
    have hy : y.1 = tF := by simpa using hhead
    have hcy : commit_time_dt y.2 = some y.1 := hres y (List.mem_cons_self _ _)
    have : (closeSession cur).commits.head? = some y.2 := by
      simp [closeSession, hc]
    rw [firstInstant_eq_of_head this, hcy, hy]

/-- When the session invariant holds, the Python read of the last member's
instant is just the current `end`. -/
theorem lastInstant_eq {cur : CurSession}
    (h : (cur.commits.getLast?).map Prod.fst = some cur.stop) :
    lastInstant cur = cur.stop := by
  unfold lastInstant
  rw [h]
  rfl

/-- The loop always emits at least one session, whose head commit and start
are those of the current session (extensions only append at the end). -/
theorem sessionLoop_head (gapSec : Int) (pullsDesc : List Int) :
    ∀ (todo : List (Int × Commit)) (cur : CurSession), cur.commits ≠ [] →
    ∃ S ss, sessionLoop gapSec pullsDesc todo cur = S :: ss ∧
      S.commits.head? = (cur.commits.head?).map Prod.snd ∧ S.start = cur.start := by
  intro todo
  induction todo with
  | nil =>
    intro cur _
    exact ⟨closeSession cur, [], rfl, List.head?_map _ _, rfl⟩
  | cons x rest ih =>
    intro cur hne
    obtain ⟨t, c⟩ := x
    unfold sessionLoop
    split_ifs with hgap
    · obtain ⟨S, ss, heq, hhead, hstart⟩ := ih ⟨cur.start, t, cur.commits ++ [(t, c)]⟩
        (by simp)
      refine ⟨S, ss, heq, ?_, hstart⟩
      rw [hhead]
      cases hc : cur.commits with
      | nil => exact absurd hc hne
      | cons y ys => simp
    · exact ⟨closeSession cur, _, rfl, List.head?_map _ _, rfl⟩

/-- Every emitted session satisfies the start-end order and the
duration formula (inputs sorted ascending and bounded below by the current
session's end). -/
theorem sessionLoop_inv (gapSec : Int) (pullsDesc : List Int) :
    ∀ (todo : List (Int × Commit)) (cur : CurSession),
    cur.start ≤ cur.stop →
    todo.Pairwise instLe →
    (∀ x ∈ todo, cur.stop ≤ x.1) →
    ∀ S ∈ sessionLoop gapSec pullsDesc todo cur,
      S.start ≤ S.stop ∧ S.duration_minutes = max 1 ((S.stop - S.start).fdiv 60) := by
  intro todo
  induction todo with
  | nil =>
    intro cur hss _ _ S hS
    unfold sessionLoop at hS
    rw [List.mem_singleton.mp hS]
    exact ⟨hss, rfl⟩
  | cons x rest ih =>
    intro cur hss hpw hlb S hS
    obtain ⟨t, c⟩ := x
    have hts : cur.stop ≤ t := hlb (t, c) (List.mem_cons_self _ _)
    obtain ⟨hhead, htail⟩ := List.pairwise_cons.mp hpw
    unfold sessionLoop at hS
    split_ifs at hS with hgap
    · exact ih ⟨cur.start, t, cur.commits ++ [(t, c)]⟩ (le_trans hss hts) htail
        (fun x hx => hhead x hx) S hS
    · rcases List.mem_cons.mp hS with rfl | hS'
      · exact ⟨hss, rfl⟩
      · exact ih ⟨adjustStart pullsDesc t, t, [(t, c)]⟩ (adjustStart_le pullsDesc t)
          htail (fun x hx => hhead x hx) S hS'

/-- Every emitted session's start is the pull adjustment of its first
commit's instant. -/
theorem sessionLoop_start (gapSec : Int) (pullsDesc : List Int) :
    ∀ (todo : List (Int × Commit)) (cur : CurSession) (tF : Int),
    (cur.commits.head?).map Prod.fst = some tF →
    (∀ x ∈ cur.commits, commit_time_dt x.2 = some x.1) →
    (∀ x ∈ todo, commit_time_dt x.2 = some x.1) →
    cur.start = adjustStart pullsDesc tF →
    ∀ S ∈ sessionLoop gapSec pullsDesc todo cur,
      ∃ t, firstInstant S = some t ∧ S.start = adjustStart pullsDesc t := by
  intro todo
  induction todo with
  | nil =>
    intro cur tF hhead hres _ hstart S hS
    unfold sessionLoop at hS
    rw [List.mem_singleton.mp hS]
    exact ⟨tF, firstInstant_closeSession hhead hres, hstart⟩
  | cons x rest ih =>
    intro cur tF hhead hres htodo hstart S hS
    obtain ⟨t, c⟩ := x
    unfold sessionLoop at hS
    split_ifs at hS with hgap
    · have hne : cur.commits ≠ [] := by
        intro hc; rw [hc] at hhead; simp at hhead
      refine ih ⟨cur.start, t, cur.commits ++ [(t, c)]⟩ tF ?_ ?_
        (fun x hx => htodo x (List.mem_cons_of_mem _ hx)) hstart S hS
      · cases hc : cur.commits with
        | nil => exact absurd hc hne
        | cons y ys => rw [hc] at hhead; simpa using hhead
      · intro x hx
        rcases List.mem_append.mp hx with hx' | hx'
        · exact hres x hx'
        · rw [List.mem_singleton.mp hx']
          exact htodo (t, c) (List.mem_cons_self _ _)
    · rcases List.mem_cons.mp hS with rfl | hS'
      · exact ⟨tF, firstInstant_closeSession hhead hres, hstart⟩
      · refine ih ⟨adjustStart pullsDesc t, t, [(t, c)]⟩ t (by simp) ?_
          (fun x hx => htodo x (List.mem_cons_of_mem _ hx)) rfl S hS'
        intro x hx
        rw [List.mem_singleton.mp hx]
        exact htodo (t, c) (List.mem_cons_self _ _)

/-- Adjacent emitted sessions are separated by more than the gap: the next
session's first commit lies strictly more than `gapSec` after the previous
session's end. -/
theorem sessionLoop_chain (gapSec : Int) (pullsDesc : List Int) :
    ∀ (todo : List (Int × Commit)) (cur : CurSession),
    cur.commits ≠ [] →
    ((cur.commits.getLast?).map Prod.fst) = some cur.stop →
    (∀ x ∈ cur.commits, commit_time_dt x.2 = some x.1) →
    (∀ x ∈ todo, commit_time_dt x.2 = some x.1) →
    List.Chain' (fun Si Sj => ∀ tj, firstInstant Sj = some tj → gapSec < tj - Si.stop)
      (sessionLoop gapSec pullsDesc todo cur) := by
  intro todo
  induction todo with
  | nil =>
    intro cur _ _ _ _
    exact List.chain'_singleton _
  | cons x rest ih =>
    intro cur hne hlast hres htodo
    obtain ⟨t, c⟩ := x
    unfold sessionLoop
    split_ifs with hgap
    · refine ih ⟨cur.start, t, cur.commits ++ [(t, c)]⟩ (by simp) (by simp) ?_
        (fun x hx => htodo x (List.mem_cons_of_mem _ hx))
      intro x hx
      rcases List.mem_append.mp hx with hx' | hx'
      · exact hres x hx'
      · rw [List.mem_singleton.mp hx']
        exact htodo (t, c) (List.mem_cons_self _ _)
    · rw [List.chain'_cons']
      have hres' : ∀ x ∈ [(t, c)], commit_time_dt x.2 = some x.1 := by
        intro x hx
        rw [List.mem_singleton.mp hx]
        exact htodo (t, c) (List.mem_cons_self _ _)
      constructor
      · intro b hb
        obtain ⟨S, ss, heq, hheadS, _⟩ :=
          sessionLoop_head gapSec pullsDesc rest
            ⟨adjustStart pullsDesc t, t, [(t, c)]⟩ (by simp)
        rw [heq] at hb
        obtain rfl : S = b := by simpa using hb
        intro tj htj
        have hfc : S.commits.head? = some c := by simpa using hheadS
        rw [firstInstant_eq_of_head hfc, htodo (t, c) (List.mem_cons_self _ _)] at htj
        obtain rfl := Option.some.inj htj
        have hl : lastInstant cur = cur.stop := lastInstant_eq hlast
        rw [hl] at hgap
        show gapSec < t - cur.stop
        omega
      · exact ih ⟨adjustStart pullsDesc t, t, [(t, c)]⟩ (by simp) (by simp) hres'
          (fun x hx => htodo x (List.mem_cons_of_mem _ hx))

/-- The segmentation decisions do not depend on the pull times: the runs with
and without them produce sessions pairwise equal in end and commit list. -/
theorem sessionLoop_pullfree (gapSec : Int) (pullsDesc : List Int) :
    ∀ (todo : List (Int × Commit)) (cur cur0 : CurSession),
    cur.stop = cur0.stop → cur.commits = cur0.commits →
    List.Forall₂ (fun (S S0 : Session) => S.stop = S0.stop ∧ S.commits = S0.commits)
      (sessionLoop gapSec pullsDesc todo cur) (sessionLoop gapSec [] todo cur0) := by
  intro todo
  induction todo with
  | nil =>
    intro cur cur0 h1 h2
    exact List.Forall₂.cons ⟨h1, by simp [closeSession, h2]⟩ List.Forall₂.nil
  | cons x rest ih =>
    intro cur cur0 h1 h2
    obtain ⟨t, c⟩ := x
    unfold sessionLoop
    have hli : lastInstant cur = lastInstant cur0 := by
      unfold lastInstant
      rw [h1, h2]
    rw [hli]
    split_ifs with hgap
    · exact ih _ _ rfl (by rw [h2])
    · exact List.Forall₂.cons ⟨h1, by simp [closeSession, h2]⟩ (ih _ _ rfl rfl)

/-! Unpacking the top-level session computation. -/

/-- A successful `compute_work_sessions` run is either the trivial empty-input
case or a `sessionLoop` run over the sorted resolved items. -/
theorem compute_work_sessions_eq {commits : List Commit} {gap_minutes : Int}
    {pull_times : List Int} {ss : List Session}
    (h : compute_work_sessions commits gap_minutes pull_times = some ss) :
    (commits = [] ∧ ss = []) ∨
    ∃ resolved t0 c0 rest,
      resolveAll commits = some resolved ∧
      List.insertionSort instLe resolved = (t0, c0) :: rest ∧
      ss = sessionLoop (gap_minutes * 60) (sortPullsDesc pull_times) rest
        ⟨adjustStart (sortPullsDesc pull_times) t0, t0, [(t0, c0)]⟩ := by
  cases hcs : commits with
  | nil =>
    left
    rw [hcs] at h
    have : some ([] : List Session) = some ss := h
    exact ⟨rfl, (Option.some.inj this).symm⟩
  | cons c cs =>
    right
    rw [hcs] at h
    cases hr : resolveAll (c :: cs) with
    | none => simp [compute_work_sessions, hr] at h
    | some resolved =>
      cases hsort : List.insertionSort instLe resolved with
      | nil => simp [compute_work_sessions, hr, hsort] at h
      | cons y rest =>
        obtain ⟨t0, c0⟩ := y
        simp only [compute_work_sessions, hr, hsort] at h
        exact ⟨resolved, t0, c0, rest, rfl, hsort, (Option.some.inj h).symm⟩

/-- Sample commit with a trusted (nonzero) epoch timestamp. -/
def wCommit (t : Int) (msg : String) : Commit :=
  ⟨"sha", "name", "mail", ⟨none, none, none⟩, some t, msg⟩

/-- Sample commit whose timestamp cannot be resolved by any format. -/
def badCommit : Commit :=
  ⟨"badsha", "name", "mail", ⟨none, none, none⟩, none, "broken"⟩

/-- Claim C5 (amended): every session of a successful run has
`start ≤ end` and `durationMinutes = max(1, floor((end − start)/60 s))`;
and a single-event batch with no pull marks yields one session with
`start = end` and duration 1.  (The original "in particular" clause fails
once a pull mark qualifies: see the counterexample.) -/
theorem C5_session_invariants :
    (∀ (commits : List Commit) (gap_minutes : Int) (pull_times : List Int)
        (ss : List Session),
      compute_work_sessions commits gap_minutes pull_times = some ss →
      ∀ S ∈ ss, S.start ≤ S.stop ∧
        S.duration_minutes = max 1 ((S.stop - S.start).fdiv 60)) ∧
    (∀ (c : Commit) (t gap_minutes : Int), commit_time_dt c = some t →
      compute_work_sessions [c] gap_minutes [] = some [⟨t, t, 1, [c]⟩]) := by
  constructor
  · intro commits gap pulls ss h S hS
    rcases compute_work_sessions_eq h with ⟨_, rfl⟩ | ⟨resolved, t0, c0, rest, hr, hsort, rfl⟩
    · simp at hS
    · have hpw : ((t0, c0) :: rest).Pairwise instLe := by
        rw [← hsort]
        exact List.sorted_insertionSort instLe resolved
      obtain ⟨hhead, htail⟩ := List.pairwise_cons.mp hpw
      exact sessionLoop_inv _ _ rest
        ⟨adjustStart (sortPullsDesc pulls) t0, t0, [(t0, c0)]⟩
        (adjustStart_le _ t0) htail (fun x hx => hhead x hx) S hS
  · intro c t gap hc
    simp only [compute_work_sessions, resolveAll, hc]
    simp only [List.insertionSort, List.orderedInsert, sortPullsDesc, List.reverse_nil]
    simp only [sessionLoop, closeSession, adjustStart, find_pull_start]
    simp [sub_self, Int.zero_fdiv]

/-- Claim C5 counterexample: a single event at 3600 s with a pull mark at 0
yields a session with start 0 ≠ end 3600 and duration 60, not the claimed
start = end, duration 1. -/
theorem C5_counterexample :
    compute_work_sessions [wCommit 3600 "m"] 60 [0] =
      some [⟨0, 3600, 60, [wCommit 3600 "m"]⟩] ∧
    compute_work_sessions [wCommit 3600 "m"] 60 [0] ≠
      some [⟨3600, 3600, 1, [wCommit 3600 "m"]⟩] := by decide

/-- Claim C5 witness: the invariant and the single-event case at a concrete
run. -/
theorem C5_witness :
    ((⟨1000, 1000, 1, [wCommit 1000 "m"]⟩ : Session).start ≤
        (⟨1000, 1000, 1, [wCommit 1000 "m"]⟩ : Session).stop ∧
      (⟨1000, 1000, 1, [wCommit 1000 "m"]⟩ : Session).duration_minutes =
        max 1 (((⟨1000, 1000, 1, [wCommit 1000 "m"]⟩ : Session).stop -
          (⟨1000, 1000, 1, [wCommit 1000 "m"]⟩ : Session).start).fdiv 60)) ∧
    compute_work_sessions [wCommit 1000 "m"] 60 [] =
      some [⟨1000, 1000, 1, [wCommit 1000 "m"]⟩] :=
  ⟨C5_session_invariants.1 [wCommit 1000 "m"] 60 []
      [⟨1000, 1000, 1, [wCommit 1000 "m"]⟩] (by decide)
      ⟨1000, 1000, 1, [wCommit 1000 "m"]⟩ (List.mem_singleton.mpr rfl),
    C5_session_invariants.2 (wCommit 1000 "m") 1000 60 (by decide)⟩

/-- Claim C7: every session of a successful run has a resolvable first
commit, and the first commit of each next session lies strictly more than
`gapMinutes` after the previous session's end. -/
theorem C7_adjacent_sessions_gap :
    ∀ (commits : List Commit) (gap_minutes : Int) (pull_times : List Int)
      (ss : List Session),
    compute_work_sessions commits gap_minutes pull_times = some ss →
    (∀ S ∈ ss, ∃ t, firstInstant S = some t) ∧
    ss.Chain' (fun Si Sj => ∀ tj, firstInstant Sj = some tj →
      gap_minutes * 60 < tj - Si.stop) := by
  intro commits gap pulls ss h
  rcases compute_work_sessions_eq h with ⟨_, rfl⟩ | ⟨resolved, t0, c0, rest, hr, hsort, rfl⟩
  · exact ⟨by simp, List.chain'_nil⟩
  · have hresm : ∀ x ∈ (t0, c0) :: rest, commit_time_dt x.2 = some x.1 := by
      intro x hx
      have hx' : x ∈ List.insertionSort instLe resolved := by rw [hsort]; exact hx
      exact resolveAll_mem hr x ((List.perm_insertionSort instLe resolved).mem_iff.mp hx')
    have hres1 : ∀ x ∈ [(t0, c0)], commit_time_dt x.2 = some x.1 := by
      intro x hx
      rw [List.mem_singleton.mp hx]
      exact hresm (t0, c0) (List.mem_cons_self _ _)
    constructor
    · intro S hS
      obtain ⟨t, ht, _⟩ := sessionLoop_start _ _ rest
        ⟨adjustStart (sortPullsDesc pulls) t0, t0, [(t0, c0)]⟩ t0 (by simp) hres1
        (fun x hx => hresm x (List.mem_cons_of_mem _ hx)) rfl S hS
      exact ⟨t, ht⟩
    · exact sessionLoop_chain _ _ rest
        ⟨adjustStart (sortPullsDesc pulls) t0, t0, [(t0, c0)]⟩ (by simp) (by simp) hres1
        (fun x hx => hresm x (List.mem_cons_of_mem _ hx))

/-- Claim C7 witness: two events 19000 s apart under a 60-minute gap give
two sessions satisfying the separation property. -/
theorem C7_witness :
    (∀ S ∈ [(⟨1000, 1000, 1, [wCommit 1000 "a"]⟩ : Session),
        ⟨20000, 20000, 1, [wCommit 20000 "b"]⟩], ∃ t, firstInstant S = some t) ∧
    List.Chain' (fun Si Sj => ∀ tj, firstInstant Sj = some tj →
        (60 : Int) * 60 < tj - Si.stop)
      [⟨1000, 1000, 1, [wCommit 1000 "a"]⟩, ⟨20000, 20000, 1, [wCommit 20000 "b"]⟩] :=
  C7_adjacent_sessions_gap [wCommit 1000 "a", wCommit 20000 "b"] 60 []
    [⟨1000, 1000, 1, [wCommit 1000 "a"]⟩, ⟨20000, 20000, 1, [wCommit 20000 "b"]⟩]
    (by decide)

/-- Claim C4 (amended): for every session independently, writing `t` for its
first event's instant, if some pull mark lies strictly before `t` and within
120 minutes of it, the session's start is the most recent such mark; if no
mark qualifies the start is `t`.  (A mark exactly at `t` never qualifies:
the code requires a strictly positive distance.) -/
theorem C4_pull_adjustment_amended :
    ∀ (commits : List Commit) (gap_minutes : Int) (pull_times : List Int)
      (ss : List Session),
    compute_work_sessions commits gap_minutes pull_times = some ss →
    ∀ S ∈ ss, ∃ t, firstInstant S = some t ∧
      ((∃ p ∈ pull_times, 0 < t - p ∧ t - p ≤ 7200) →
        S.start ∈ pull_times ∧ 0 < t - S.start ∧ t - S.start ≤ 7200 ∧
          ∀ p ∈ pull_times, 0 < t - p → t - p ≤ 7200 → p ≤ S.start) ∧
      ((∀ p ∈ pull_times, ¬(0 < t - p ∧ t - p ≤ 7200)) → S.start = t) := by
  intro commits gap pulls ss h S hS
  rcases compute_work_sessions_eq h with ⟨_, rfl⟩ | ⟨resolved, t0, c0, rest, hr, hsort, rfl⟩
  · simp at hS
  · have hresm : ∀ x ∈ (t0, c0) :: rest, commit_time_dt x.2 = some x.1 := by
      intro x hx
      have hx' : x ∈ List.insertionSort instLe resolved := by rw [hsort]; exact hx
      exact resolveAll_mem hr x ((List.perm_insertionSort instLe resolved).mem_iff.mp hx')
    have hres1 : ∀ x ∈ [(t0, c0)], commit_time_dt x.2 = some x.1 := by
      intro x hx
      rw [List.mem_singleton.mp hx]
      exact hresm (t0, c0) (List.mem_cons_self _ _)
    obtain ⟨t, ht, hstart⟩ := sessionLoop_start _ _ rest
      ⟨adjustStart (sortPullsDesc pulls) t0, t0, [(t0, c0)]⟩ t0 (by simp) hres1
      (fun x hx => hresm x (List.mem_cons_of_mem _ hx)) rfl S hS
    refine ⟨t, ht, ?_, ?_⟩
    · rintro ⟨p, hp, hq1, hq2⟩
      cases hfind : find_pull_start t (sortPullsDesc pulls) with
      | none =>
        exact absurd ⟨hq1, hq2⟩
          (find_pull_start_none_forall hfind p (mem_sortPullsDesc.mpr hp))
      | some m =>
        have hsm : S.start = m := by
          rw [hstart]
          unfold adjustStart
          rw [hfind]
        obtain ⟨hm, h1m, h2m⟩ := find_pull_start_mem hfind
        rw [hsm]
        exact ⟨mem_sortPullsDesc.mp hm, h1m, h2m,
          fun q hq hq1' hq2' => find_pull_start_greatest (sortPullsDesc_pairwise pulls)
            hfind q (mem_sortPullsDesc.mpr hq) hq1' hq2'⟩
    · intro hno
      rw [hstart]
      exact adjustStart_eq_of_no_qual fun p hp => hno p (mem_sortPullsDesc.mp hp)

/-- Claim C4 counterexample: pull marks at 53400 and 54000 with a single
event at 54000.  The most recent mark at most the start (54000, at distance
0 ≤ 120 min) is skipped; the code back-dates to 53400 instead of using the
claimed most recent mark 54000. -/
theorem C4_counterexample :
    compute_work_sessions [wCommit 54000 "m"] 60 [53400, 54000] =
      some [⟨53400, 54000, 10, [wCommit 54000 "m"]⟩] ∧
    compute_work_sessions [wCommit 54000 "m"] 60 [53400, 54000] ≠
      some [⟨54000, 54000, 1, [wCommit 54000 "m"]⟩] ∧
    (54000 : Int) ≤ 54000 ∧ (54000 : Int) - 54000 ≤ 7200 := by decide

/-- Claim C4 witness: the 09:00 event (32400 s) with an 08:50 pull mark
(31800 s) yields a session starting at 31800. -/
theorem C4_witness :
    compute_work_sessions [wCommit 32400 "m"] 60 [31800] =
      some [⟨31800, 32400, 10, [wCommit 32400 "m"]⟩] ∧
    (∃ t, firstInstant (⟨31800, 32400, 10, [wCommit 32400 "m"]⟩ : Session) = some t ∧
      ((∃ p ∈ [(31800 : Int)], 0 < t - p ∧ t - p ≤ 7200) →
        (⟨31800, 32400, 10, [wCommit 32400 "m"]⟩ : Session).start ∈ [(31800 : Int)] ∧
        0 < t - (⟨31800, 32400, 10, [wCommit 32400 "m"]⟩ : Session).start ∧
        t - (⟨31800, 32400, 10, [wCommit 32400 "m"]⟩ : Session).start ≤ 7200 ∧
          ∀ p ∈ [(31800 : Int)], 0 < t - p → t - p ≤ 7200 →
            p ≤ (⟨31800, 32400, 10, [wCommit 32400 "m"]⟩ : Session).start) ∧
      ((∀ p ∈ [(31800 : Int)], ¬(0 < t - p ∧ t - p ≤ 7200)) →
        (⟨31800, 32400, 10, [wCommit 32400 "m"]⟩ : Session).start = t)) :=
  ⟨by decide,
    C4_pull_adjustment_amended [wCommit 32400 "m"] 60 [31800]
      [⟨31800, 32400, 10, [wCommit 32400 "m"]⟩] (by decide)
      ⟨31800, 32400, 10, [wCommit 32400 "m"]⟩ (List.mem_singleton.mpr rfl)⟩

/-- Combining the stop/commit correspondence of the pulled and pull-free runs
with the start characterization of each side. -/
theorem forall2_strengthen (pulls : List Int) :
    ∀ {l l0 : List Session},
    List.Forall₂ (fun (S S0 : Session) => S.stop = S0.stop ∧ S.commits = S0.commits) l l0 →
    (∀ S ∈ l, ∃ t, firstInstant S = some t ∧
      S.start = adjustStart (sortPullsDesc pulls) t) →
    (∀ S0 ∈ l0, ∃ t, firstInstant S0 = some t ∧ S0.start = adjustStart [] t) →
    List.Forall₂ (fun (S S0 : Session) =>
      S.stop = S0.stop ∧ S.commits = S0.commits ∧ S.start ≤ S0.start ∧
      ∀ t, firstInstant S = some t →
        (∀ p ∈ pulls, ¬(0 < t - p ∧ t - p ≤ 7200)) → S.start = S0.start) l l0 := by
  intro l l0 hf
  induction hf with
  | nil =>
    intro _ _
    exact List.Forall₂.nil
  | @cons a b l1 l2 hpair htail ih =>
    intro hc hc0
    refine List.Forall₂.cons ?_
      (ih (fun S hS => hc S (List.mem_cons_of_mem _ hS))
          (fun S hS => hc0 S (List.mem_cons_of_mem _ hS)))
    obtain ⟨t, hft, hstart⟩ := hc a (List.mem_cons_self _ _)
    obtain ⟨t0, hft0, hstart0⟩ := hc0 b (List.mem_cons_self _ _)
    obtain ⟨hstop, hcomm⟩ := hpair
    have hfe : firstInstant b = firstInstant a := by
      unfold firstInstant
      rw [hcomm]
    have heqt : t0 = t := by
      rw [hfe, hft] at hft0
      exact (Option.some.inj hft0).symm
    subst heqt
    refine ⟨hstop, hcomm, ?_, ?_⟩
    · rw [hstart, hstart0]
      exact adjustStart_le _ t0
    · intro t' hft' hno
      rw [hft] at hft'
      obtain rfl := Option.some.inj hft'
      rw [hstart, hstart0]
      exact adjustStart_eq_of_no_qual fun p hp => hno p (mem_sortPullsDesc.mp hp)

/-- Claim C9: compared with the same run without pull marks, pull adjustment
keeps every session's end and commit sequence, can only move its start
earlier, and leaves the session unchanged when no mark qualifies for its
first commit's instant. -/
theorem C9_pull_adjustment_frame :
    ∀ (commits : List Commit) (gap_minutes : Int) (pull_times : List Int)
      (ss ss0 : List Session),
    compute_work_sessions commits gap_minutes pull_times = some ss →
    compute_work_sessions commits gap_minutes [] = some ss0 →
    List.Forall₂ (fun (S S0 : Session) =>
      S.stop = S0.stop ∧ S.commits = S0.commits ∧ S.start ≤ S0.start ∧
      ∀ t, firstInstant S = some t →
        (∀ p ∈ pull_times, ¬(0 < t - p ∧ t - p ≤ 7200)) → S.start = S0.start) ss ss0 := by
  intro commits gap pulls ss ss0 h h0
  rcases compute_work_sessions_eq h with ⟨hcs, rfl⟩ | ⟨resolved, t0, c0, rest, hr, hsort, rfl⟩
  · rcases compute_work_sessions_eq h0 with ⟨_, rfl⟩ | ⟨resolved, t0, c0, rest, hr, hsort, rfl⟩
    · exact List.Forall₂.nil
    · rw [hcs] at hr
      simp [resolveAll] at hr
      rw [hr] at hsort
      simp [List.insertionSort] at hsort
  · rcases compute_work_sessions_eq h0 with ⟨hcs, _⟩ | ⟨resolved', t0', c0', rest', hr', hsort', rfl⟩
    · rw [hcs] at hr
      simp [resolveAll] at hr
      rw [hr] at hsort
      simp [List.insertionSort] at hsort
    · rw [hr] at hr'
      obtain rfl : resolved = resolved' := Option.some.inj hr'
      rw [hsort] at hsort'
      obtain ⟨ht0, hc0, hrest⟩ : t0 = t0' ∧ c0 = c0' ∧ rest = rest' := by
        have h1 := (List.cons.injEq _ _ _ _).mp hsort'
        exact ⟨(Prod.mk.injEq _ _ _ _).mp h1.1 |>.1, (Prod.mk.injEq _ _ _ _).mp h1.1 |>.2,
          h1.2⟩
      subst ht0; subst hc0; subst hrest
      have hresm : ∀ x ∈ (t0, c0) :: rest, commit_time_dt x.2 = some x.1 := by
        intro x hx
        have hx' : x ∈ List.insertionSort instLe resolved := by rw [hsort]; exact hx
        exact resolveAll_mem hr x ((List.perm_insertionSort instLe resolved).mem_iff.mp hx')
      have hres1 : ∀ x ∈ [(t0, c0)], commit_time_dt x.2 = some x.1 := by
        intro x hx
        rw [List.mem_singleton.mp hx]
        exact hresm (t0, c0) (List.mem_cons_self _ _)
      have hbase := sessionLoop_pullfree (gap * 60) (sortPullsDesc pulls) rest
        ⟨adjustStart (sortPullsDesc pulls) t0, t0, [(t0, c0)]⟩
        ⟨adjustStart (sortPullsDesc []) t0, t0, [(t0, c0)]⟩ rfl rfl
      have hchar := sessionLoop_start (gap * 60) (sortPullsDesc pulls) rest
        ⟨adjustStart (sortPullsDesc pulls) t0, t0, [(t0, c0)]⟩ t0
        (by simp) hres1 (fun x hx => hresm x (List.mem_cons_of_mem _ hx)) rfl
      have hchar0 := sessionLoop_start (gap * 60) [] rest
        ⟨adjustStart (sortPullsDesc []) t0, t0, [(t0, c0)]⟩ t0
        (by simp) hres1 (fun x hx => hresm x (List.mem_cons_of_mem _ hx)) rfl
      exact forall2_strengthen pulls hbase hchar hchar0

/-- Claim C9 witness: one event at 32400 s, pull mark at 31800 s, against the
pull-free run. -/
theorem C9_witness :
    List.Forall₂ (fun (S S0 : Session) =>
      S.stop = S0.stop ∧ S.commits = S0.commits ∧ S.start ≤ S0.start ∧
      ∀ t, firstInstant S = some t →
        (∀ p ∈ [(31800 : Int)], ¬(0 < t - p ∧ t - p ≤ 7200)) → S.start = S0.start)
      [⟨31800, 32400, 10, [wCommit 32400 "m"]⟩]
      [⟨32400, 32400, 1, [wCommit 32400 "m"]⟩] :=
  C9_pull_adjustment_frame [wCommit 32400 "m"] 60 [31800]
    [⟨31800, 32400, 10, [wCommit 32400 "m"]⟩]
    [⟨32400, 32400, 1, [wCommit 32400 "m"]⟩] (by decide) (by decide)

/-- Claim C1 (amended): no configuration validation exists; even with
`gapMinutes < 1` the segmentation runs and produces sessions for any batch
whose timestamps all resolve. -/
theorem C1_no_config_validation :
    ∀ (gap_minutes : Int) (pull_times : List Int) (commits : List Commit),
    gap_minutes < 1 →
    (∀ c ∈ commits, (commit_time_dt c).isSome) →
    commits ≠ [] →
    ∃ ss, compute_work_sessions commits gap_minutes pull_times = some ss ∧ ss ≠ [] := by
  intro gap pulls commits hgap hres hne
  obtain ⟨l, hl, hlen⟩ := resolveAll_isSome hres
  cases hcs : commits with
  | nil => exact absurd hcs hne
  | cons c cs =>
    have hlen' : (List.insertionSort instLe l).length = l.length :=
      (List.perm_insertionSort instLe l).length_eq
    cases hsort : List.insertionSort instLe l with
    | nil =>
      rw [hsort] at hlen'
      rw [hcs] at hlen
      simp [← hlen'] at hlen
    | cons y rest =>
      obtain ⟨t0, c0⟩ := y
      rw [hcs] at hl
      refine ⟨sessionLoop (gap * 60) (sortPullsDesc pulls) rest
          ⟨adjustStart (sortPullsDesc pulls) t0, t0, [(t0, c0)]⟩,
        by simp only [compute_work_sessions, hl, hsort], ?_⟩
      obtain ⟨S, ss', heq, _, _⟩ := sessionLoop_head (gap * 60) (sortPullsDesc pulls)
        rest ⟨adjustStart (sortPullsDesc pulls) t0, t0, [(t0, c0)]⟩
        (by simp)
      rw [heq]
      simp

/-- Claim C1 counterexample: with `gapMinutes = 0 < 1` the run does not
abort: segmentation executes and emits two sessions. -/
theorem C1_counterexample :
    compute_work_sessions [wCommit 1000 "a", wCommit 2000 "b"] 0 [] =
      some [⟨1000, 1000, 1, [wCommit 1000 "a"]⟩, ⟨2000, 2000, 1, [wCommit 2000 "b"]⟩] ∧
    compute_work_sessions [wCommit 1000 "a", wCommit 2000 "b"] 0 [] ≠ none := by decide

/-- Claim C1 witness: the amended theorem at `gapMinutes = 0`. -/
theorem C1_witness :
    ∃ ss, compute_work_sessions [wCommit 1000 "a", wCommit 2000 "b"] 0 [] = some ss ∧
      ss ≠ [] :=
  C1_no_config_validation 0 [] [wCommit 1000 "a", wCommit 2000 "b"] (by decide)
    (by decide) (by decide)

/-- Claim C2 (amended): an event whose timestamp cannot be resolved aborts
the whole nonempty batch: the computation fails, nothing is produced for the
remaining events and no warning count exists. -/
theorem C2_unresolvable_aborts :
    ∀ (commits : List Commit) (gap_minutes : Int) (pull_times : List Int) (c : Commit),
    c ∈ commits → commit_time_dt c = none →
    compute_work_sessions commits gap_minutes pull_times = none := by
  intro commits gap pulls c hc hbad
  cases hcs : commits with
  | nil => rw [hcs] at hc; simp at hc
  | cons c' cs =>
    rw [hcs] at hc
    have hres : resolveAll (c' :: cs) = none := resolveAll_eq_none hc hbad
    simp only [compute_work_sessions, hres]

/-- Claim C2 counterexample: a batch with one resolvable and one
unresolvable event yields no output at all, although the resolvable event
alone would have produced a session. -/
theorem C2_counterexample :
    compute_work_sessions [wCommit 1000 "ok", badCommit] 60 [] = none ∧
    compute_work_sessions [wCommit 1000 "ok"] 60 [] =
      some [⟨1000, 1000, 1, [wCommit 1000 "ok"]⟩] := by decide

/-- Claim C2 witness: the amended theorem at the concrete bad batch. -/
theorem C2_witness :
    compute_work_sessions [wCommit 1000 "ok", badCommit] 60 [] = none :=
  C2_unresolvable_aborts [wCommit 1000 "ok", badCommit] 60 [] badCommit
    (by decide) (by decide)

/-! Feature-window lemmas. -/

/-- Updating one window with two instants commutes. -/
theorem stepWindow_comm (w : Option Window) (t1 t2 : Int) :
    stepWindow (stepWindow w t1) t2 = stepWindow (stepWindow w t2) t1 := by
  cases w with
  | none =>
    simp only [stepWindow, Option.some.injEq, Window.mk.injEq]
    refine ⟨?_, ?_, trivial⟩ <;> split_ifs <;> omega
  | some w' =>
    simp only [stepWindow, Option.some.injEq, Window.mk.injEq]
    refine ⟨?_, ?_, trivial⟩ <;> split_ifs <;> omega

/-- Two dict writes commute (as lookup functions). -/
theorem updWindows_comm (ws : String → Option Window) (k1 k2 : String) (t1 t2 : Int) :
    updWindows (updWindows ws k1 t1) k2 t2 = updWindows (updWindows ws k2 t2) k1 t1 := by
  by_cases h12 : k1 = k2
  · subst h12
    funext k
    by_cases hk : k = k1 <;> simp [updWindows, hk, stepWindow_comm]
  · funext k
    by_cases hk1 : k = k1 <;> by_cases hk2 : k = k2
    · exact absurd (hk1 ▸ hk2) h12
    · simp [updWindows, hk1, hk2, h12, Ne.symm h12]
    · simp [updWindows, hk1, hk2, h12, Ne.symm h12]
    · simp [updWindows, hk1, hk2]

/-- The window fold is invariant under permutation of the commit list. -/
theorem fwLoop_perm : ∀ {l l' : List Commit}, l.Perm l' →
    ∀ ws, fwLoop l ws = fwLoop l' ws := by
  intro l l' h
  induction h with
  | nil =>
    intro ws
    rfl
  | cons x _ ih =>
    intro ws
    simp only [fwLoop]
    cases hx : commit_time_dt x with
    | none => rfl
    | some t => exact ih _
  | swap x y l =>
    intro ws
    cases hx : commit_time_dt x <;> cases hy : commit_time_dt y <;>
      simp only [fwLoop, hx, hy]
    rw [updWindows_comm]
  | trans _ _ ih1 ih2 =>
    intro ws
    exact (ih1 ws).trans (ih2 ws)

/-- Claim C8: the feature-window aggregation is order-independent — any
permutation of the event list yields the same category-to-window mapping. -/
theorem C8_order_independence :
    ∀ (l l' : List Commit), l.Perm l' →
    compute_feature_windows l = compute_feature_windows l' := by
  intro l l' h
  unfold compute_feature_windows
  exact fwLoop_perm h _

/-- Claim C8 witness: swapping two concrete events leaves the mapping
unchanged. -/
theorem C8_witness :
    compute_feature_windows [wCommit 1000 "feat: a", wCommit 2000 "fix: b"] =
      compute_feature_windows [wCommit 2000 "fix: b", wCommit 1000 "feat: a"] :=
  C8_order_independence _ _ (List.Perm.swap _ _ _)

/-- Claim C3 (amended): with events at `t1` ("feat: add x") and `t2`
("feat(ui): y"), the first maps to category `feat` but the second to
`other` (its pre-colon token "feat(ui)" is not whitelisted); the feat
window is `{start = t1, end = t1, count = 1}` and the other window is
`{start = t2, end = t2, count = 1}`. -/
theorem C3_category_windows (t1 t2 : Int) :
    ∃ w, compute_feature_windows
        [⟨"s1", "n", "e", ⟨some t1, none, none⟩, none, "feat: add x"⟩,
         ⟨"s2", "n", "e", ⟨some t2, none, none⟩, none, "feat(ui): y"⟩] = some w ∧
      w "feat" = some ⟨t1, t1, 1⟩ ∧ w "other" = some ⟨t2, t2, 1⟩ := by
  refine ⟨_, rfl, ?_, ?_⟩ <;> rfl

/-- Claim C3 counterexample: the two scenario events do not produce a feat
window of count 2; "feat(ui): y" lands in `other`, so the feat window keeps
count 1 and span `t1..t1`. -/
theorem C3_counterexample :
    (compute_feature_windows
        [wCommit 1000 "feat: add x", wCommit 2000 "feat(ui): y"]).map
      (fun w => w "feat") = some (some ⟨1000, 1000, 1⟩) ∧
    ¬((compute_feature_windows
        [wCommit 1000 "feat: add x", wCommit 2000 "feat(ui): y"]).map
      (fun w => w "feat") = some (some ⟨1000, 2000, 2⟩)) := by decide

/-! Overlap-detector lemmas. -/

/-- A closed group only emits when it spans at least two distinct repos. -/
theorem closeGroup_card {cur : List Period} : ∀ o ∈ closeGroup cur, 2 ≤ o.repos.card := by
  intro o ho
  unfold closeGroup at ho
  split_ifs at ho with h
  · rw [List.mem_singleton.mp ho]
    exact h
  · simp at ho

/-- Every raw overlap of the phase-1 scan spans at least two repos. -/
theorem phase1loop_card : ∀ {ps cur : List Period},
    ∀ o ∈ phase1loop ps cur, 2 ≤ o.repos.card := by
  intro ps
  induction ps with
  | nil =>
    intro cur o ho
    exact closeGroup_card o ho
  | cons p rest ih =>
    intro cur o ho
    unfold phase1loop at ho
    split_ifs at ho with h1 h2
    · exact ih o ho
    · exact ih o ho
    · rcases List.mem_append.mp ho with h | h
      · exact closeGroup_card o h
      · exact ih o h

/-- The grace merge preserves the two-repo lower bound. -/
theorem phase2loop_card : ∀ {rest : List Overlap} {cur : Overlap},
    2 ≤ cur.repos.card → (∀ r ∈ rest, 2 ≤ r.repos.card) →
    ∀ o ∈ phase2loop cur rest, 2 ≤ o.repos.card := by
  intro rest
  induction rest with
  | nil =>
    intro cur h _ o ho
    unfold phase2loop at ho
    rw [List.mem_singleton.mp ho]
    exact h
  | cons nxt rest' ih =>
    intro cur h hrr o ho
    unfold phase2loop at ho
    split_ifs at ho with hm
    · refine ih ?_ (fun r hr' => hrr r (List.mem_cons_of_mem _ hr')) o ho
      calc (2 : ℕ) ≤ cur.repos.card := h
        _ ≤ (mergeTwo cur nxt).repos.card :=
          Finset.card_le_card Finset.subset_union_left
    · rcases List.mem_cons.mp ho with rfl | ho'
      · exact h
      · exact ih (hrr nxt (List.mem_cons_self _ _))
          (fun r hr' => hrr r (List.mem_cons_of_mem _ hr')) o ho'

/-- A group drawn from at most one repo never emits. -/
theorem closeGroup_eq_nil {F : Finset String} (hF : F.card ≤ 1) {cur : List Period}
    (hcur : ∀ p ∈ cur, p.repo ∈ F) : closeGroup cur = [] := by
  have hsub : (cur.map Period.repo).toFinset ⊆ F := by
    intro r hrmem
    obtain ⟨p, hp, rfl⟩ := List.mem_map.mp (List.mem_toFinset.mp hrmem)
    exact hcur p hp
  have hcard := Finset.card_le_card hsub
  have hlt : ¬(1 < ((cur.map Period.repo).toFinset).card) := by omega
  unfold closeGroup
  rw [if_neg hlt]

/-- With at most one distinct repo in play, the phase-1 scan emits nothing. -/
theorem phase1loop_eq_nil {F : Finset String} (hF : F.card ≤ 1) :
    ∀ {ps cur : List Period},
    (∀ p ∈ ps, p.repo ∈ F) → (∀ p ∈ cur, p.repo ∈ F) →
    phase1loop ps cur = [] := by
  intro ps
  induction ps with
  | nil =>
    intro cur _ hcur
    exact closeGroup_eq_nil hF hcur
  | cons p rest ih =>
    intro cur hps hcur
    unfold phase1loop
    split_ifs with h1 h2
    · exact ih (fun q hq => hps q (List.mem_cons_of_mem _ hq))
        (fun q hq => by rw [List.mem_singleton.mp hq]; exact hps p (List.mem_cons_self _ _))
    · refine ih (fun q hq => hps q (List.mem_cons_of_mem _ hq)) ?_
      intro q hq
      rcases List.mem_append.mp hq with h | h
      · exact hcur q h
      · rw [List.mem_singleton.mp h]
        exact hps p (List.mem_cons_self _ _)
    · rw [closeGroup_eq_nil hF hcur,
        ih (fun q hq => hps q (List.mem_cons_of_mem _ hq))
          (fun q hq => by rw [List.mem_singleton.mp hq]; exact hps p (List.mem_cons_self _ _))]
      rfl

/-- Every flattened period's repo is a repo owning at least one session. -/
theorem sessPeriods_repo_mem {m : List (String × List Session)} :
    ∀ q ∈ sessPeriods m,
      q.repo ∈ ((m.filter (fun x => !x.2.isEmpty)).map Prod.fst).toFinset := by
  intro q hq
  unfold sessPeriods at hq
  obtain ⟨rs, hmem, hq'⟩ := List.mem_flatMap.mp hq
  obtain ⟨s, hs, rfl⟩ := List.mem_map.mp hq'
  simp only [List.mem_toFinset, List.mem_map]
  refine ⟨rs, ?_, rfl⟩
  rw [List.mem_filter]
  refine ⟨hmem, ?_⟩
  simp only [Bool.not_eq_true']
  rw [← Bool.not_eq_true]
  intro hemp
  rw [List.isEmpty_iff] at hemp
  rw [hemp] at hs
  simp at hs

/-- Claim C6: every emitted overlap period names at least two projects, and
with at most one project owning sessions the result is empty. -/
theorem C6_overlap_invariants :
    (∀ (m : List (String × List Session)), ∀ o ∈ detect_parallel_sessions m,
      2 ≤ o.repos.card) ∧
    (∀ (m : List (String × List Session)),
      (((m.filter (fun x => !x.2.isEmpty)).map Prod.fst).toFinset).card ≤ 1 →
      detect_parallel_sessions m = []) := by
  constructor
  · intro m o ho
    unfold detect_parallel_sessions at ho
    split_ifs at ho with h1 h2
    · simp at ho
    · simp at ho
    · split at ho
      · simp at ho
      · rename_i o1 raws' hs
        have hall : ∀ r ∈ o1 :: raws', 2 ≤ r.repos.card := by
          intro r hrm
          have hr' : r ∈ List.insertionSort overlapLe
              (phase1loop (List.insertionSort periodLe (sessPeriods m)) []) := by
            rw [hs]
            exact hrm
          exact phase1loop_card r ((List.perm_insertionSort overlapLe _).mem_iff.mp hr')
        exact phase2loop_card (hall o1 (List.mem_cons_self _ _))
          (fun r hrm => hall r (List.mem_cons_of_mem _ hrm)) o ho
  · intro m hcard
    unfold detect_parallel_sessions
    split_ifs with h1 h2
    · rfl
    · rfl
    · have hnil : phase1loop (List.insertionSort periodLe (sessPeriods m)) [] = [] := by
        refine phase1loop_eq_nil hcard ?_ ?_
        · intro q hq
          exact sessPeriods_repo_mem q ((List.perm_insertionSort periodLe _).mem_iff.mp hq)
        · intro q hq
          simp at hq
      rw [hnil]
      rfl

/-- Claim C6 witness: a genuine two-project overlap has a two-element
project set, and a single-project input yields no overlap periods. -/
theorem C6_witness :
    2 ≤ (Overlap.mk 36000 38700 {"A", "B"} 45).repos.card ∧
    detect_parallel_sessions [("A", [⟨0, 100, 1, []⟩, ⟨10000, 10100, 1, []⟩])] = [] :=
  ⟨C6_overlap_invariants.1
      [("A", [⟨36000, 37800, 30, []⟩]), ("B", [⟨36900, 38700, 30, []⟩])]
      (Overlap.mk 36000 38700 {"A", "B"} 45) (by decide),
    C6_overlap_invariants.2 [("A", [⟨0, 100, 1, []⟩, ⟨10000, 10100, 1, []⟩])] (by decide)⟩

/-- Claim C10: the intersection test is closed at both boundaries — two
sessions of distinct projects that merely touch (one's end equals the
other's start) are grouped together, yielding a single overlap period that
spans both sessions and names both projects. -/
theorem C10_closed_boundary (s1 e1 e2 d1 d2 : Int) (cs1 cs2 : List Commit)
    (rA rB : String) (h1 : s1 ≤ e1) (h2 : e1 ≤ e2) (hr : rA ≠ rB) :
    detect_parallel_sessions [(rA, [⟨s1, e1, d1, cs1⟩]), (rB, [⟨e1, e2, d2, cs2⟩])] =
      [⟨s1, e2, {rA, rB}, (e2 - s1).fdiv 60⟩] := by
  have hsp : sessPeriods [(rA, [⟨s1, e1, d1, cs1⟩]), (rB, [⟨e1, e2, d2, cs2⟩])] =
      [⟨s1, e1, rA⟩, ⟨e1, e2, rB⟩] := rfl
  have hAB : periodLe ⟨s1, e1, rA⟩ ⟨e1, e2, rB⟩ := by
    unfold periodLe
    rcases lt_or_eq_of_le h1 with h | h
    · exact Or.inl h
    · exact Or.inr ⟨h, h2⟩
  have hsort : List.insertionSort periodLe [(⟨s1, e1, rA⟩ : Period), ⟨e1, e2, rB⟩] =
      [(⟨s1, e1, rA⟩ : Period), ⟨e1, e2, rB⟩] := by
    simp only [List.insertionSort, List.orderedInsert]
    rw [if_pos hAB]
  have hov : overlapsOne ⟨e1, e2, rB⟩ [⟨s1, e1, rA⟩] = true := by
    simp only [overlapsOne, List.any_cons, List.any_nil, Bool.or_false]
    rw [decide_eq_false (by omega : ¬((e2 : Int) < s1)),
      decide_eq_false (by omega : ¬((e1 : Int) > e1))]
    rfl
  have hph : phase1loop [(⟨s1, e1, rA⟩ : Period), ⟨e1, e2, rB⟩] [] =
      closeGroup [⟨s1, e1, rA⟩, ⟨e1, e2, rB⟩] := by
    simp only [phase1loop, List.isEmpty_nil, List.isEmpty_cons, if_true, hov,
      Bool.false_eq_true, if_false]
    rfl
  have hcard : 1 < ((([(⟨s1, e1, rA⟩ : Period), ⟨e1, e2, rB⟩].map Period.repo)).toFinset).card := by
    simp only [List.map_cons, List.map_nil, List.toFinset_cons, List.toFinset_nil,
      insert_emptyc_eq]
    rw [Finset.card_insert_of_not_mem (by simp [hr])]
    simp
  have hcg : closeGroup [(⟨s1, e1, rA⟩ : Period), ⟨e1, e2, rB⟩] =
      [⟨s1, e2, {rA, rB}, (e2 - s1).fdiv 60⟩] := by
    unfold closeGroup
    rw [if_pos hcard]
    simp only [List.map_cons, List.map_nil, minList, maxList, List.foldl_cons,
      List.foldl_nil, List.toFinset_cons, List.toFinset_nil, insert_emptyc_eq]
    rw [min_eq_left h1, max_eq_right h2]
  unfold detect_parallel_sessions
  rw [if_neg (by simp), if_neg (by simp [hsp]), hsp, hsort, hph, hcg]
  rfl

/-- Claim C10 witness: sessions 10:00-10:10 on project A and 10:10-10:20 on
project B merge into one period 10:00-10:20 over both projects. -/
theorem C10_witness :
    detect_parallel_sessions
        [("A", [⟨36000, 36600, 10, []⟩]), ("B", [⟨36600, 37200, 10, []⟩])] =
      [⟨36000, 37200, {"A", "B"}, ((37200 : Int) - 36000).fdiv 60⟩] :=
  C10_closed_boundary 36000 36600 37200 10 10 [] [] "A" "B" (by decide) (by decide)
    (by decide)
